import Mathlib

/-!
Shallow embedding of src/challenge_number_399_easy_letter_value_sum.py.

A Python `str` is modelled as a list of Unicode codepoints (`List Nat`);
the empty string is `[]`.  `str.lower` and `str.isalpha` are modelled
faithfully on the Latin-1 fragment of Unicode (codepoints up to 0xFF,
plus U+03BC which `0xB5.lower()` produces); every string appearing in
this development lies in that fragment.  Codepoints above the fragment
are treated as non-alphabetic and left unchanged by lowering.

Python dicts (`defaultdict(list)`, `defaultdict(str)`) are modelled as
insertion-ordered association lists, exactly as CPython iterates them.
File I/O (`process_file`) is out of scope: `buildState` folds
`process_line` over the already-stripped lines, and the `print` of
sum-319 words in `process_line` is an output side effect with no bearing
on the state.  A call of Python `max` on an empty list raises
`ValueError`; fallible operations therefore return `Option`, with `none`
standing for the raised exception.
-/

namespace Challenge399

/-- A Python string: a list of Unicode codepoints. -/
abbrev Word := List Nat

/-- Model of Python `str.lower` on one codepoint, faithful on Latin-1:
`A`-`Z` and `À`-`Þ` (except `×`) gain 32, micro sign U+00B5 lowers to
Greek mu U+03BC, everything else in the fragment is unchanged. -/
def pyLower (c : Nat) : Nat :=
  if 65 ≤ c ∧ c ≤ 90 then c + 32
  else if c = 0xB5 then 0x3BC
  else if 0xC0 ≤ c ∧ c ≤ 0xDE ∧ c ≠ 0xD7 then c + 32
  else c

/-- Model of Python `str.isalpha` on one codepoint, faithful on Latin-1
(plus U+03BC): ASCII letters, `ª`, `µ`, `º`, `À`-`Ö`, `Ø`-`ö`, `ø`-`ÿ`. -/
def pyIsAlpha (c : Nat) : Bool :=
  decide ((97 ≤ c ∧ c ≤ 122) ∨ (65 ≤ c ∧ c ≤ 90) ∨ c = 0xAA ∨ c = 0xB5 ∨
    c = 0xBA ∨ (0xC0 ≤ c ∧ c ≤ 0xD6) ∨ (0xD8 ≤ c ∧ c ≤ 0xF6) ∨
    (0xF8 ≤ c ∧ c ≤ 0xFF) ∨ c = 0x3BC)

/-- Model of Python `str.lower` on a whole string. -/
def pyLowerStr (s : Word) : Word := s.map pyLower

namespace LetterSum

/-- `LetterSum.calculate`:
`sum(ord(i) - 96 for i in string.lower() if i.isalpha())`. -/
def calculate (s : Word) : Nat :=
  (((s.map pyLower).filter pyIsAlpha).map (fun c => c - 96)).sum

end LetterSum

/-- Convert a Lean string of known characters to its codepoint list,
used only to write concrete corpora readably. -/
def w (s : List Char) : Word := s.map Char.toNat

/-- `defaultdict(list)` bucket update: `d[k].append(v)`.  A missing key is
created at the end of the insertion order with the one-element list. -/
def bucketAppend (d : List (Nat × List Word)) (k : Nat) (v : Word) :
    List (Nat × List Word) :=
  match d with
  | [] => [(k, [v])]
  | (k0, vs) :: rest =>
      if k0 = k then (k0, vs ++ [v]) :: rest else (k0, vs) :: bucketAppend rest k v

/-- Dict lookup returning `none` when the key is absent. -/
def bucketFind (d : List (Nat × List Word)) (k : Nat) : Option (List Word) :=
  match d with
  | [] => none
  | (k0, vs) :: rest => if k0 = k then some vs else bucketFind rest k

/-- Dict assignment `d[k] = v`: overwrite in place, keeping the key's
position in insertion order; a missing key is appended. -/
def assocSet (d : List ((Nat × Nat) × Word)) (k : Nat × Nat) (v : Word) :
    List ((Nat × Nat) × Word) :=
  match d with
  | [] => [(k, v)]
  | (k0, v0) :: rest =>
      if k0 = k then (k0, v) :: rest else (k0, v0) :: assocSet rest k v

/-- Dict lookup returning `none` when the key is absent. -/
def assocFind (d : List ((Nat × Nat) × Word)) (k : Nat × Nat) : Option Word :=
  match d with
  | [] => none
  | (k0, v0) :: rest => if k0 = k then some v0 else assocFind rest k

/-- `self.words_length_and_sum.get(key, "")`: lookup with default `""`. -/
def assocGet (d : List ((Nat × Nat) × Word)) (k : Nat × Nat) : Word :=
  (assocFind d k).getD []

/-- The mutable fields of `WordAnalyzer` that `_process_line` updates
(`filename` and the two pair lists are not touched by the build pass). -/
structure AnalyzerState where
  odd_letter_count : Nat
  most_common_words : List (Nat × List Word)
  words_length_and_sum : List ((Nat × Nat) × Word)
  MAXLEN : Nat
  MAXSUM : Nat
  deriving DecidableEq

/-- `WordAnalyzer.__init__`: empty indices, zero counters. -/
def initState : AnalyzerState :=
  { odd_letter_count := 0, most_common_words := [], words_length_and_sum := [],
    MAXLEN := 0, MAXSUM := 0 }

/-- `WordAnalyzer._process_line` (the `print` on sum 319 is output only). -/
def process_line (st : AnalyzerState) (line : Word) : AnalyzerState :=
  let ls := LetterSum.calculate line
  { odd_letter_count :=
      if ls % 2 ≠ 0 then st.odd_letter_count + 1 else st.odd_letter_count
    most_common_words := bucketAppend st.most_common_words ls line
    words_length_and_sum :=
      assocSet st.words_length_and_sum (line.length, ls) line
    MAXLEN := max st.MAXLEN line.length
    MAXSUM := max st.MAXSUM ls }

/-- `WordAnalyzer.process_file` after I/O: fold `_process_line` over the
newline-stripped lines in file order. -/
def buildState (lines : List Word) : AnalyzerState :=
  lines.foldl process_line initState

/-- The per-bucket `length_dict`: group a bucket's words by length with
`defaultdict(list)` appends, in word order. -/
def groupByLen (ws : List Word) : List (Nat × List Word) :=
  ws.foldl (fun d v => bucketAppend d v.length v) []

/-- Lookup of an `int`-valued target length among `Nat` dict keys
(`if target_length in length_dict` followed by the access). -/
def bucketFindI (d : List (Nat × List Word)) (t : Int) : Option (List Word) :=
  match d with
  | [] => none
  | (k0, vs) :: rest => if (k0 : Int) = t then some vs else bucketFindI rest t

/-- The two nested `for w1 ... for w2 ...` loops: all pairs of a base word
and a target word, in loop order. -/
def crossPairs (xs ys : List Word) : List (Word × Word) :=
  (xs.map (fun x => ys.map (fun y => (x, y)))).flatten

/-- `WordAnalyzer._find_length_diff_pairs`, as the pure list of pairs the
method appends to the initially empty `self.word_pairs_length_diff`. -/
def find_length_diff_pairs (mcw : List (Nat × List Word)) (length_diff : Int) :
    List (Word × Word) :=
  (mcw.map (fun p =>
    let length_dict := groupByLen p.2
    (length_dict.map (fun q =>
      match bucketFindI length_dict ((q.1 : Int) + length_diff) with
      | some target_words => crossPairs q.2 target_words
      | none => [])).flatten)).flatten

/-- `set(a).isdisjoint(set(b))`: no codepoint of `a` occurs in `b`. -/
def pyDisjoint (a b : Word) : Bool :=
  a.all (fun c => !(b.contains c))

/-- The `for start ... for end ...` double loop over indices `i < j` of a
bucket's word list, keeping the pairs with disjoint letter sets. -/
def disjointPairsIn (vs : List Word) : List (Word × Word) :=
  match vs with
  | [] => []
  | v :: rest =>
      ((rest.filter (fun u => pyDisjoint v u)).map (fun u => (v, u))) ++
        disjointPairsIn rest

/-- `WordAnalyzer._find_no_common_pairs`, as the pure list of pairs the
method appends to the initially empty `self.word_pairs_no_common`. -/
def find_no_common_pairs (mcw : List (Nat × List Word)) (min_sum : Nat) :
    List (Word × Word) :=
  (mcw.map (fun p =>
    if min_sum < p.1 ∧ 2 ≤ p.2.length then disjointPairsIn p.2 else [])).flatten

/-- The inner `for letter_sum in range(lo, lo + fuel)` search: first sum
`s` in the range whose entry `words_length_and_sum.get((length, s), "")`
is truthy (a nonempty word); the walrus `if word := ...` skips falsy
(empty) entries without breaking. -/
def findFirstSumAux (idx : List ((Nat × Nat) × Word)) (length : Nat) :
    Nat → Nat → Option (Nat × Word)
  | _, 0 => none
  | lo, fuel + 1 =>
      let word := assocGet idx (length, lo)
      if word ≠ [] then some (lo, word) else findFirstSumAux idx length (lo + 1) fuel

/-- First truthy entry at `(length, s)` for `s` in `range(lo, hi)`. -/
def findFirstSum (idx : List ((Nat × Nat) × Word)) (length lo hi : Nat) :
    Option (Nat × Word) :=
  findFirstSumAux idx length lo (hi - lo)

/-- Python `chain[-1]`.  Raises on an empty list; the algorithm only
applies it to nonempty chains (an invariant proved below), so the `[]`
default is never reached. -/
def pyLast : List Word → Word
  | [] => []
  | [u] => u
  | _ :: rest => pyLast rest

/-- One `for chain in chainlist` body at the current length, with
`next_sum = LetterSum.calculate(chain[-1]) + 1`: either the chain is
extended in place (found sum exactly `next_sum`), or a branched copy is
put on `templist`, or nothing is found.  Returns the possibly extended
chain and the branched chains. -/
def stepChain (idx : List ((Nat × Nat) × Word)) (maxsum length : Nat)
    (chain : List Word) : List Word × List (List Word) :=
  match findFirstSum idx length (LetterSum.calculate (pyLast chain) + 1) maxsum with
  | none => (chain, [])
  | some (letter_sum, word) =>
      if letter_sum = LetterSum.calculate (pyLast chain) + 1 then (chain ++ [word], [])
      else (chain, [chain ++ [word]])

/-- One iteration of the outer `for length in range(MAXLEN, 0, -1)` loop:
step every chain, extend `chainlist` with `templist`, then try to start
one new singleton chain at this length. -/
def lengthStep (idx : List ((Nat × Nat) × Word)) (maxsum length : Nat)
    (chainlist : List (List Word)) : List (List Word) :=
  let stepped := chainlist.map (stepChain idx maxsum length)
  let merged := stepped.map Prod.fst ++ (stepped.map Prod.snd).flatten
  match findFirstSum idx length 1 maxsum with
  | none => merged
  | some p => merged ++ [[p.2]]

/-- The outer loop, lengths `l, l-1, ..., 1`. -/
def runLengths (idx : List ((Nat × Nat) × Word)) (maxsum : Nat) :
    Nat → List (List Word) → List (List Word)
  | 0, chainlist => chainlist
  | l + 1, chainlist => runLengths idx maxsum l (lengthStep idx maxsum (l + 1) chainlist)

/-- Python `max(chainlist, key=len)`: `none` models the `ValueError`
raised on an empty list; otherwise the first chain of maximal length
(later chains replace the running best only when strictly longer). -/
def pyMaxByLen (chainlist : List (List Word)) : Option (List Word) :=
  match chainlist with
  | [] => none
  | c :: rest =>
      some (rest.foldl (fun best x => if best.length < x.length then x else best) c)

/-- `WordAnalyzer.find_longest_unique`. -/
def find_longest_unique (st : AnalyzerState) : Option (List Word) :=
  pyMaxByLen (runLengths st.words_length_and_sum st.MAXSUM st.MAXLEN [])

/-- The word geographically: length 14, letter sum 139. -/
def geographically : Word :=
  w ['g', 'e', 'o', 'g', 'r', 'a', 'p', 'h', 'i', 'c', 'a', 'l', 'l', 'y']

/-- The word eavesdropper: length 12, letter sum 144. -/
def eavesdropper : Word :=
  w ['e', 'a', 'v', 'e', 's', 'd', 'r', 'o', 'p', 'p', 'e', 'r']

/-- The word woodworker: length 10, letter sum 147. -/
def woodworker : Word :=
  w ['w', 'o', 'o', 'd', 'w', 'o', 'r', 'k', 'e', 'r']

/-- The word oxymorons: length 9, letter sum 158. -/
def oxymorons : Word :=
  w ['o', 'x', 'y', 'm', 'o', 'r', 'o', 'n', 's']

/-! ## Basic lemmas about the dict models -/

theorem assocFind_assocSet (d : List ((Nat × Nat) × Word)) (k k' : Nat × Nat)
    (v : Word) :
    assocFind (assocSet d k v) k' =
      if k' = k then some v else assocFind d k' := by
  induction d with
  | nil =>
      by_cases h : k' = k
      · simp [assocSet, assocFind, h]
      · simp [assocSet, assocFind, h, Ne.symm h]
  | cons p rest ih =>
      obtain ⟨k0, v0⟩ := p
      by_cases h0 : k0 = k
      · subst h0
        by_cases h : k' = k0
        · simp [assocSet, assocFind, h]
        · simp [assocSet, assocFind, h, Ne.symm h]
      · by_cases h : k' = k0
        · subst h
          simp [assocSet, assocFind, h0, Ne.symm h0]
        · simp [assocSet, assocFind, h0, h, Ne.symm h, ih]

theorem bucketFind_bucketAppend (d : List (Nat × List Word)) (k k' : Nat)
    (v : Word) :
    bucketFind (bucketAppend d k v) k' =
      if k' = k then some ((bucketFind d k).getD [] ++ [v])
      else bucketFind d k' := by
  induction d with
  | nil =>
      by_cases h : k' = k
      · simp [bucketAppend, bucketFind, h]
      · simp [bucketAppend, bucketFind, h, Ne.symm h]
  | cons p rest ih =>
      obtain ⟨k0, vs⟩ := p
      by_cases h0 : k0 = k
      · subst h0
        by_cases h : k' = k0
        · simp [bucketAppend, bucketFind, h]
        · simp [bucketAppend, bucketFind, h, Ne.symm h]
      · by_cases h : k' = k0
        · subst h
          simp [bucketAppend, bucketFind, h0, Ne.symm h0]
        · simp [bucketAppend, bucketFind, h0, h, Ne.symm h, ih]

/-! ## Letter sum: case insensitivity (C9) and the ASCII fragment (C4) -/

theorem pyLower_idem (c : Nat) : pyLower (pyLower c) = pyLower c := by
  unfold pyLower
  split_ifs <;> omega

theorem map_pyLower_idem (s : Word) :
    (s.map pyLower).map pyLower = s.map pyLower := by
  rw [List.map_map]
  exact List.map_congr_left (fun a _ => pyLower_idem a)

/-- C9: for all strings s, `LetterSum.calculate s` equals
`LetterSum.calculate` of the lowercased string: the letter sum is
case-insensitive. -/
theorem C9_case_insensitive (s : Word) :
    LetterSum.calculate s = LetterSum.calculate (pyLowerStr s) := by
  unfold LetterSum.calculate pyLowerStr
  rw [map_pyLower_idem]

/-- C4 counterexample: the non-ASCII character é (U+00E9) is alphabetic
for Python, so `LetterSum.calculate` gives the one-character string é the
value 233 - 96 = 137, not 0 as the claim states. -/
theorem C4_counterexample :
    LetterSum.calculate [233] = 137 ∧ LetterSum.calculate [233] ≠ 0 := by
  decide

/-- C4 (amended): restricted to ASCII characters the claim holds: an
ASCII letter contributes its position in the alphabet (a=1..z=26,
case-insensitively, via lowering), any other ASCII character contributes
0.  Non-ASCII characters may contribute nonzero values. -/
theorem C4_ascii_fragment (c : Nat) (h : c < 128) :
    LetterSum.calculate [c] =
      if (97 ≤ c ∧ c ≤ 122) ∨ (65 ≤ c ∧ c ≤ 90) then pyLower c - 96 else 0 := by
  revert c
  decide

/-- C4 witness: the amended theorem applied at the ASCII dot character,
codepoint 46, which contributes 0. -/
theorem C4_witness :
    (46 : Nat) < 128 ∧
      LetterSum.calculate [46] =
        if (97 ≤ 46 ∧ 46 ≤ 122) ∨ (65 ≤ (46 : Nat) ∧ 46 ≤ 90) then
          pyLower 46 - 96
        else 0 :=
  ⟨by decide, C4_ascii_fragment 46 (by decide)⟩

/-! ## The LengthSumIndex build pass: last-wins (C1), empty lines (C8) -/

/-- Folding `_process_line` from any state assigns to the key
`(len(line), sum)` at every line, so the stored word at a key is the last
matching line, falling back to the start state's entry. -/
theorem foldl_last_wins (lines : List Word) (st : AnalyzerState) (l s : Nat) :
    assocFind ((lines.foldl process_line st).words_length_and_sum) (l, s) =
      match (lines.filter
          (fun v => v.length == l && LetterSum.calculate v == s)).getLast? with
      | some v => some v
      | none => assocFind st.words_length_and_sum (l, s) := by
  induction lines generalizing st with
  | nil => rfl
  | cons a t ih =>
      have hstep :
          assocFind ((process_line st a).words_length_and_sum) (l, s) =
            if (l, s) = (a.length, LetterSum.calculate a) then some a
            else assocFind st.words_length_and_sum (l, s) := by
        simp [process_line, assocFind_assocSet]
      by_cases hPa : a.length = l ∧ LetterSum.calculate a = s
      · have hkey : (l, s) = (a.length, LetterSum.calculate a) := by
          simp [hPa.1, hPa.2]
        have hfa : (a.length == l && LetterSum.calculate a == s) = true := by
          simp [hPa.1, hPa.2]
        rw [List.foldl_cons, ih]
        simp only [List.filter_cons, hfa, eq_self_iff_true, if_true]
        cases hx : (t.filter
            (fun v => v.length == l && LetterSum.calculate v == s)).getLast? with
        | none =>
            simp only [hx]
            rw [hstep, if_pos hkey, List.getLast?_eq_none_iff.mp hx]
            rfl
        | some x =>
            rcases List.getLast?_eq_some_iff.mp hx with ⟨ys, hys⟩
            have hsplit : a :: (ys ++ [x]) = (a :: ys) ++ [x] := rfl
            simp only [hx]
            rw [hys, hsplit, List.getLast?_concat]
      · have hfa : (a.length == l && LetterSum.calculate a == s) = false := by
          rcases not_and_or.mp hPa with h | h <;> simp [h]
        have hkey : (l, s) ≠ (a.length, LetterSum.calculate a) := by
          intro hk
          obtain ⟨h1, h2⟩ := Prod.mk.inj hk
          exact hPa ⟨h1.symm, h2.symm⟩
        rw [List.foldl_cons, ih]
        simp only [List.filter_cons, hfa, Bool.false_eq_true, if_false]
        rw [hstep, if_neg hkey]

/-- C1 counterexample: both ab and ba have length 2 and letter sum 3;
after processing the lines ab then ba, the entry stored at key (2, 3) is
ba, the LAST word in source order, not the first word ab as the claim
states: the assignment overwrites. -/
theorem C1_counterexample :
    LetterSum.calculate (w ['a', 'b']) = 3 ∧
      LetterSum.calculate (w ['b', 'a']) = 3 ∧
      (w ['a', 'b']).length = 2 ∧ (w ['b', 'a']).length = 2 ∧
      assocFind ((buildState [w ['a', 'b'], w ['b', 'a']]).words_length_and_sum)
          (2, 3) = some (w ['b', 'a']) ∧
      w ['b', 'a'] ≠ w ['a', 'b'] := by
  decide

/-- C1 (amended): after the build pass the word retained in
`words_length_and_sum` for a (length, letter-sum) pair is the LAST word
encountered in source order with that length and that sum; a later word
with the same pair overwrites the earlier one. -/
theorem C1_last_word_retained (lines : List Word) (l s : Nat) :
    assocFind ((buildState lines).words_length_and_sum) (l, s) =
      (lines.filter
        (fun v => v.length == l && LetterSum.calculate v == s)).getLast? := by
  have h := foldl_last_wins lines initState l s
  cases hx : (lines.filter
      (fun v => v.length == l && LetterSum.calculate v == s)).getLast? with
  | none => simpa [buildState, hx, initState, assocFind] using h
  | some x => simpa [buildState, hx] using h

/-- C8: processing the empty line is not an error: its letter sum is 0,
the odd-sum counter is unchanged, the empty word is appended to the
sum-0 bucket of `most_common_words`, and (0, 0) becomes a key of
`words_length_and_sum` holding the empty word. -/
theorem C8_empty_line (st : AnalyzerState) :
    LetterSum.calculate [] = 0 ∧
      (process_line st []).odd_letter_count = st.odd_letter_count ∧
      bucketFind (process_line st []).most_common_words 0 =
        some ((bucketFind st.most_common_words 0).getD [] ++ [[]]) ∧
      assocFind (process_line st []).words_length_and_sum (0, 0) = some [] := by
  refine ⟨rfl, ?_, ?_, ?_⟩
  · simp [process_line, LetterSum.calculate]
  · simp [process_line, LetterSum.calculate, bucketFind_bucketAppend]
  · simp [process_line, LetterSum.calculate, assocFind_assocSet]

/-! ## The chain builder on concrete corpora (C2, C3) -/

/-- C2: on the corpus of exactly the four challenge words the chain
builder returns only THREE of them: `range(next_sum, self.MAXSUM)` and
`range(1, self.MAXSUM)` exclude `MAXSUM` itself, so oxymorons, whose
letter sum 158 is the corpus maximum, can never start or extend a chain.
The claim (and the challenge's own worked example) expects all four. -/
theorem C2_four_word_corpus_eval :
    find_longest_unique
        (buildState [geographically, eavesdropper, woodworker, oxymorons]) =
      some [geographically, eavesdropper, woodworker] := by
  decide

/-- C3: there is a valid non-empty corpus on which `find_longest_unique`
raises `ValueError` (modelled as `none`): with the one-word corpus of
the word a, every sum search runs over `range(..., MAXSUM)` with
`MAXSUM = 1`, which is empty, so no chain is ever started and
`max(chainlist, key=len)` is applied to an empty list. -/
theorem C3_crash_on_all_maxsum_corpus :
    ∃ lines : List Word,
      lines ≠ [] ∧ find_longest_unique (buildState lines) = none :=
  ⟨[[97]], by decide, by decide⟩

/-! ## The pair finders (C6, C7) -/

/-- Hypothesis shared by C6 and C7: the sum index is well-formed, every
word in a bucket has the bucket key as its letter sum. -/
abbrev SumsOK (mcw : List (Nat × List Word)) : Prop :=
  ∀ p ∈ mcw, ∀ u ∈ p.2, LetterSum.calculate u = p.1

theorem bucketFind_mem {d : List (Nat × List Word)} {k : Nat} {g : List Word}
    (h : bucketFind d k = some g) : (k, g) ∈ d := by
  induction d with
  | nil => simp [bucketFind] at h
  | cons p rest ih =>
      obtain ⟨k0, vs⟩ := p
      by_cases hk : k0 = k
      · subst hk
        simp [bucketFind] at h
        simp [h]
      · simp [bucketFind, hk] at h
        exact List.mem_cons_of_mem _ (ih h)

theorem bucketFindI_natCast (d : List (Nat × List Word)) (k : Nat) :
    bucketFindI d (k : Int) = bucketFind d k := by
  induction d with
  | nil => rfl
  | cons p rest ih =>
      obtain ⟨k0, vs⟩ := p
      by_cases hk : k0 = k
      · simp [bucketFindI, bucketFind, hk]
      · have : ((k0 : Int) = (k : Int)) = False := by
          simp [hk]
        simp [bucketFindI, bucketFind, hk, this, ih]

theorem bucketFindI_some {d : List (Nat × List Word)} {t : Int}
    {g : List Word} (h : bucketFindI d t = some g) :
    ∃ k0 : Nat, (k0 : Int) = t ∧ (k0, g) ∈ d := by
  induction d with
  | nil => simp [bucketFindI] at h
  | cons p rest ih =>
      obtain ⟨k0, vs⟩ := p
      by_cases hk : (k0 : Int) = t
      · simp [bucketFindI, hk] at h
        exact ⟨k0, hk, by simp [h]⟩
      · simp [bucketFindI, hk] at h
        obtain ⟨k1, hk1, hm⟩ := ih h
        exact ⟨k1, hk1, List.mem_cons_of_mem _ hm⟩

/-- Every entry of a `bucketAppend` fold groups only values satisfying
the keyed predicate, provided the accumulator and the inputs do. -/
theorem groupByLen_mem_sound (P : Nat → Word → Prop) :
    ∀ (ws : List Word) (acc : List (Nat × List Word)),
      (∀ q ∈ acc, ∀ u ∈ q.2, P q.1 u) → (∀ v ∈ ws, P v.length v) →
      ∀ q ∈ ws.foldl (fun d v => bucketAppend d v.length v) acc,
        ∀ u ∈ q.2, P q.1 u := by
  have hstep : ∀ (d : List (Nat × List Word)) (k0 : Nat) (v : Word),
      (∀ q ∈ d, ∀ u ∈ q.2, P q.1 u) → P k0 v →
      ∀ q ∈ bucketAppend d k0 v, ∀ u ∈ q.2, P q.1 u := by
    intro d k0 v
    induction d with
    | nil =>
        intro _ hv q hq u hu
        simp [bucketAppend] at hq
        subst hq
        simp at hu
        subst hu
        exact hv
    | cons p rest ih =>
        obtain ⟨k1, vs⟩ := p
        intro hd hv q hq u hu
        by_cases hk : k1 = k0
        · subst hk
          simp [bucketAppend] at hq
          rcases hq with hq | hq
          · subst hq
            simp at hu
            rcases hu with hu | hu
            · exact hd (k1, vs) (by simp) u hu
            · subst hu
              exact hv
          · exact hd q (List.mem_cons_of_mem _ hq) u hu
        · simp [bucketAppend, hk] at hq
          rcases hq with hq | hq
          · subst hq
            exact hd (k1, vs) (by simp) u hu
          · exact ih (fun q hq => hd q (List.mem_cons_of_mem _ hq)) hv q hq u hu
  intro ws
  induction ws with
  | nil => intro acc hacc _ q hq u hu; exact hacc q hq u hu
  | cons v t ih =>
      intro acc hacc hws q hq u hu
      exact ih (bucketAppend acc v.length v)
        (hstep acc v.length v hacc (hws v (by simp)))
        (fun x hx => hws x (List.mem_cons_of_mem _ hx)) q hq u hu

/-- The group found at key `k` is the accumulator's group extended by
all the words of length `k`, in order. -/
theorem groupByLen_find_getD (ws : List Word) (acc : List (Nat × List Word))
    (k : Nat) :
    (bucketFind (ws.foldl (fun d v => bucketAppend d v.length v) acc) k).getD []
      = (bucketFind acc k).getD [] ++ ws.filter (fun v => v.length == k) := by
  induction ws generalizing acc with
  | nil => simp
  | cons v t ih =>
      rw [List.foldl_cons, ih, List.filter_cons]
      by_cases hk : v.length = k
      · subst hk
        simp [bucketFind_bucketAppend]
      · have hne : (v.length == k) = false := by simp [hk]
        rw [bucketFind_bucketAppend]
        simp [Ne.symm hk, hne]

theorem mem_crossPairs {xs ys : List Word} {x y : Word} :
    (x, y) ∈ crossPairs xs ys ↔ x ∈ xs ∧ y ∈ ys := by
  simp only [crossPairs, List.mem_flatten, List.mem_map]
  constructor
  · rintro ⟨l, ⟨a, ha, rfl⟩, hm⟩
    obtain ⟨b, hb, hab⟩ := List.mem_map.mp hm
    obtain ⟨h1, h2⟩ := Prod.mk.inj hab
    exact ⟨h1 ▸ ha, h2 ▸ hb⟩
  · rintro ⟨hx, hy⟩
    exact ⟨ys.map (fun b => (x, b)), ⟨x, hx, rfl⟩, List.mem_map.mpr ⟨y, hy, rfl⟩⟩

/-- C6: over a well-formed sum index, `_find_length_diff_pairs` is sound
(every returned pair has equal letter sums and length difference exactly
`length_diff`) and complete (for every bucket and every two words of it
whose lengths differ by `length_diff`, that pair is returned: the full
cross product of the two length groups). -/
theorem C6_length_diff_pairs (mcw : List (Nat × List Word)) (d : Int)
    (hs : SumsOK mcw) :
    (∀ pr ∈ find_length_diff_pairs mcw d,
        LetterSum.calculate pr.1 = LetterSum.calculate pr.2 ∧
          (pr.2.length : Int) - (pr.1.length : Int) = d) ∧
      (∀ p ∈ mcw, ∀ u ∈ p.2, ∀ v ∈ p.2,
        (v.length : Int) = (u.length : Int) + d →
          (u, v) ∈ find_length_diff_pairs mcw d) := by
  constructor
  · intro pr hpr
    rw [find_length_diff_pairs, List.mem_flatten] at hpr
    obtain ⟨outer, houter, hpr⟩ := hpr
    obtain ⟨p, hp, rfl⟩ := List.mem_map.mp houter
    rw [List.mem_flatten] at hpr
    obtain ⟨inner, hinner, hpr⟩ := hpr
    obtain ⟨q, hq, rfl⟩ := List.mem_map.mp hinner
    cases hfind : bucketFindI (groupByLen p.2) ((q.1 : Int) + d) with
    | none => rw [hfind] at hpr; simp at hpr
    | some tws =>
        rw [hfind] at hpr
        have hsound := groupByLen_mem_sound
          (fun k u => u.length = k ∧ u ∈ p.2) p.2 []
          (by simp) (fun v hv => ⟨rfl, hv⟩)
        obtain ⟨kt, hkt, hmemt⟩ := bucketFindI_some hfind
        have hpr2 : (pr.1, pr.2) ∈ crossPairs q.2 tws := by
          simpa using hpr
        obtain ⟨hx, hy⟩ := mem_crossPairs.mp hpr2
        obtain ⟨hlen1, hmem1⟩ := hsound q hq pr.1 hx
        obtain ⟨hlen2, hmem2⟩ := hsound (kt, tws) hmemt pr.2 hy
        refine ⟨?_, ?_⟩
        · rw [hs p hp pr.1 hmem1, hs p hp pr.2 hmem2]
        · rw [hlen1, hlen2, hkt]
          ring
  · intro p hp u hu v hv hlen
    have hgu := groupByLen_find_getD p.2 [] u.length
    have hgv := groupByLen_find_getD p.2 [] v.length
    have humem : u ∈ (bucketFind (groupByLen p.2) u.length).getD [] := by
      rw [groupByLen, hgu]
      simp [List.mem_filter, hu]
    have hvmem : v ∈ (bucketFind (groupByLen p.2) v.length).getD [] := by
      rw [groupByLen, hgv]
      simp [List.mem_filter, hv]
    cases hfu : bucketFind (groupByLen p.2) u.length with
    | none => rw [hfu] at humem; simp at humem
    | some g1 =>
        cases hfv : bucketFind (groupByLen p.2) v.length with
        | none => rw [hfv] at hvmem; simp at hvmem
        | some g2 =>
            rw [hfu] at humem
            rw [hfv] at hvmem
            simp only [Option.getD_some] at humem hvmem
            have hqmem : (u.length, g1) ∈ groupByLen p.2 := bucketFind_mem hfu
            have hfind : bucketFindI (groupByLen p.2) ((u.length : Int) + d)
                = some g2 := by
              rw [← hlen, bucketFindI_natCast]
              exact hfv
            rw [find_length_diff_pairs, List.mem_flatten]
            refine ⟨_, List.mem_map.mpr ⟨p, hp, rfl⟩, ?_⟩
            rw [List.mem_flatten]
            refine ⟨_, List.mem_map.mpr ⟨(u.length, g1), hqmem, rfl⟩, ?_⟩
            simp only [hfind]
            exact mem_crossPairs.mpr ⟨humem, hvmem⟩

/-- C6 witness: the theorem applied to the index with one bucket of sum
3 holding ab and c, at delta 1; the pair (c, ab) is the full output. -/
theorem C6_witness :
    SumsOK [(3, [w ['a', 'b'], w ['c']])] ∧
      ((∀ pr ∈ find_length_diff_pairs [(3, [w ['a', 'b'], w ['c']])] 1,
          LetterSum.calculate pr.1 = LetterSum.calculate pr.2 ∧
            (pr.2.length : Int) - (pr.1.length : Int) = 1) ∧
        (∀ p ∈ [(3, [w ['a', 'b'], w ['c']])], ∀ u ∈ p.2, ∀ v ∈ p.2,
          (v.length : Int) = (u.length : Int) + 1 →
            (u, v) ∈ find_length_diff_pairs [(3, [w ['a', 'b'], w ['c']])] 1)) :=
  ⟨by decide, C6_length_diff_pairs [(3, [w ['a', 'b'], w ['c']])] 1 (by decide)⟩

theorem disjointPairsIn_sound {vs : List Word} {x y : Word}
    (h : (x, y) ∈ disjointPairsIn vs) :
    x ∈ vs ∧ y ∈ vs ∧ pyDisjoint x y = true := by
  induction vs with
  | nil => simp [disjointPairsIn] at h
  | cons v rest ih =>
      rw [disjointPairsIn] at h
      rcases List.mem_append.mp h with h1 | h2
      · obtain ⟨u, hu, huv⟩ := List.mem_map.mp h1
        obtain ⟨hxv, hyu⟩ := Prod.mk.inj huv
        obtain ⟨humem, hdis⟩ := List.mem_filter.mp hu
        subst hxv
        subst hyu
        exact ⟨by simp, List.mem_cons_of_mem _ humem, hdis⟩
      · obtain ⟨hx, hy, hd⟩ := ih h2
        exact ⟨List.mem_cons_of_mem _ hx, List.mem_cons_of_mem _ hy, hd⟩

theorem disjointPairsIn_complete :
    ∀ (vs : List Word) (j : Nat), j < vs.length → ∀ i, i < j →
      pyDisjoint (vs.getD i []) (vs.getD j []) = true →
      (vs.getD i [], vs.getD j []) ∈ disjointPairsIn vs := by
  intro vs
  induction vs with
  | nil => intro j hj; simp at hj
  | cons v rest ih =>
      intro j hj i hij hd
      cases j with
      | zero => omega
      | succ j' =>
          cases i with
          | zero =>
              rw [List.getD_cons_zero, List.getD_cons_succ] at hd ⊢
              rw [disjointPairsIn]
              apply List.mem_append_left
              apply List.mem_map.mpr
              refine ⟨rest.getD j' [], List.mem_filter.mpr ⟨?_, hd⟩, rfl⟩
              have hj' : j' < rest.length := by
                simpa using hj
              rw [List.getD_eq_getElem _ _ hj']
              exact List.getElem_mem hj'
          | succ i' =>
              rw [List.getD_cons_succ, List.getD_cons_succ] at hd ⊢
              rw [disjointPairsIn]
              apply List.mem_append_right
              exact ih j' (by simpa using hj) i' (by omega) hd

/-- C7: over a well-formed sum index, `_find_no_common_pairs` returns
only pairs drawn from a single bucket whose key exceeds `min_sum`
strictly and holds at least two words, with both words carrying that
bucket's sum and disjoint letter sets (soundness); and it examines all
index pairs `i < j` inside each such bucket, emitting every disjoint
one (completeness). -/
theorem C7_no_common_pairs (mcw : List (Nat × List Word)) (min_sum : Nat)
    (hs : SumsOK mcw) :
    (∀ pr ∈ find_no_common_pairs mcw min_sum,
        ∃ p ∈ mcw, min_sum < p.1 ∧ 2 ≤ p.2.length ∧
          pr.1 ∈ p.2 ∧ pr.2 ∈ p.2 ∧
          LetterSum.calculate pr.1 = p.1 ∧ LetterSum.calculate pr.2 = p.1 ∧
          pyDisjoint pr.1 pr.2 = true) ∧
      (∀ p ∈ mcw, min_sum < p.1 → ∀ j, j < p.2.length → ∀ i, i < j →
        pyDisjoint (p.2.getD i []) (p.2.getD j []) = true →
          (p.2.getD i [], p.2.getD j []) ∈ find_no_common_pairs mcw min_sum) := by
  constructor
  · intro pr hpr
    rw [find_no_common_pairs, List.mem_flatten] at hpr
    obtain ⟨outer, houter, hpr⟩ := hpr
    obtain ⟨p, hp, rfl⟩ := List.mem_map.mp houter
    by_cases hcond : min_sum < p.1 ∧ 2 ≤ p.2.length
    · rw [if_pos hcond] at hpr
      have hpr2 : (pr.1, pr.2) ∈ disjointPairsIn p.2 := by
        simpa using hpr
      obtain ⟨h1, h2, hd⟩ := disjointPairsIn_sound hpr2
      exact ⟨p, hp, hcond.1, hcond.2, h1, h2, hs p hp pr.1 h1, hs p hp pr.2 h2, hd⟩
    · rw [if_neg hcond] at hpr
      simp at hpr
  · intro p hp hmin j hj i hij hd
    have hlen : 2 ≤ p.2.length := by omega
    rw [find_no_common_pairs, List.mem_flatten]
    refine ⟨_, List.mem_map.mpr ⟨p, hp, rfl⟩, ?_⟩
    rw [if_pos ⟨hmin, hlen⟩]
    exact disjointPairsIn_complete p.2 j hj i hij hd

/-- C7 witness: the theorem applied to the index with one bucket of sum
3 holding ab and c, at threshold 2; the pair (ab, c) is the output. -/
theorem C7_witness :
    SumsOK [(3, [w ['a', 'b'], w ['c']])] ∧
      ((∀ pr ∈ find_no_common_pairs [(3, [w ['a', 'b'], w ['c']])] 2,
          ∃ p ∈ [(3, [w ['a', 'b'], w ['c']])], 2 < p.1 ∧ 2 ≤ p.2.length ∧
            pr.1 ∈ p.2 ∧ pr.2 ∈ p.2 ∧
            LetterSum.calculate pr.1 = p.1 ∧ LetterSum.calculate pr.2 = p.1 ∧
            pyDisjoint pr.1 pr.2 = true) ∧
        (∀ p ∈ [(3, [w ['a', 'b'], w ['c']])], 2 < p.1 →
          ∀ j, j < p.2.length → ∀ i, i < j →
            pyDisjoint (p.2.getD i []) (p.2.getD j []) = true →
              (p.2.getD i [], p.2.getD j []) ∈
                find_no_common_pairs [(3, [w ['a', 'b'], w ['c']])] 2)) :=
  ⟨by decide, C7_no_common_pairs [(3, [w ['a', 'b'], w ['c']])] 2 (by decide)⟩

/-! ## Index self-consistency (C10) -/

/-- Well-formedness of the LengthSumIndex: the word stored at a key
(l, s) has length l and letter sum s. -/
def IdxWF (idx : List ((Nat × Nat) × Word)) : Prop :=
  ∀ l s u, assocFind idx (l, s) = some u →
    u.length = l ∧ LetterSum.calculate u = s

/-- The C10 invariant: both indices are self-consistent. -/
def IndicesWF (st : AnalyzerState) : Prop :=
  IdxWF st.words_length_and_sum ∧
    ∀ s g, bucketFind st.most_common_words s = some g →
      ∀ u ∈ g, LetterSum.calculate u = s

theorem indicesWF_step (st : AnalyzerState) (line : Word)
    (h : IndicesWF st) : IndicesWF (process_line st line) := by
  obtain ⟨hidx, hbuck⟩ := h
  constructor
  · intro l s u hu
    rw [process_line] at hu
    simp only at hu
    rw [assocFind_assocSet] at hu
    by_cases hk : (l, s) = (line.length, LetterSum.calculate line)
    · rw [if_pos hk] at hu
      obtain ⟨h1, h2⟩ := Prod.mk.inj hk
      cases hu
      exact ⟨h1.symm, h2.symm⟩
    · rw [if_neg hk] at hu
      exact hidx l s u hu
  · intro s g hg u hu
    rw [process_line] at hg
    simp only at hg
    rw [bucketFind_bucketAppend] at hg
    by_cases hk : s = LetterSum.calculate line
    · rw [if_pos hk] at hg
      cases hg
      rcases List.mem_append.mp hu with h1 | h2
      · cases hfind : bucketFind st.most_common_words (LetterSum.calculate line) with
        | none => rw [hfind] at h1; simp at h1
        | some g0 =>
            rw [hfind] at h1
            simp only [Option.getD_some] at h1
            rw [hk]
            exact hbuck _ g0 hfind u h1
      · simp at h2
        subst h2
        exact hk.symm
    · rw [if_neg hk] at hg
      exact hbuck s g hg u hu

theorem indicesWF_init : IndicesWF initState := by
  constructor
  · intro l s u hu
    simp [initState, assocFind] at hu
  · intro s g hg
    simp [initState, bucketFind] at hg

theorem indicesWF_build (lines : List Word) : IndicesWF (buildState lines) := by
  rw [buildState]
  have : ∀ (ls : List Word) (st : AnalyzerState), IndicesWF st →
      IndicesWF (ls.foldl process_line st) := by
    intro ls
    induction ls with
    | nil => intro st h; exact h
    | cons a t ih => intro st h; exact ih _ (indicesWF_step st a h)
  exact this lines initState indicesWF_init

/-- Every word stored in the built LengthSumIndex is one of the input
lines. -/
theorem assocFind_build_mem (lines : List Word) (k : Nat × Nat) (u : Word)
    (h : assocFind ((buildState lines).words_length_and_sum) k = some u) :
    u ∈ lines := by
  rw [buildState] at h
  have main : ∀ (ls : List Word) (st : AnalyzerState),
      assocFind ((ls.foldl process_line st).words_length_and_sum) k = some u →
      u ∈ ls ∨ assocFind st.words_length_and_sum k = some u := by
    intro ls
    induction ls with
    | nil => intro st h0; exact Or.inr h0
    | cons a t ih =>
        intro st h0
        rcases ih (process_line st a) h0 with h1 | h1
        · exact Or.inl (List.mem_cons_of_mem _ h1)
        · rw [process_line] at h1
          simp only at h1
          rw [assocFind_assocSet] at h1
          by_cases hk : k = (a.length, LetterSum.calculate a)
          · rw [if_pos hk] at h1
            cases h1
            exact Or.inl (by simp)
          · rw [if_neg hk] at h1
            exact Or.inr h1
  rcases main lines initState h with h1 | h1
  · exact h1
  · simp [initState, assocFind] at h1

/-- C10: each `_process_line` call preserves self-consistency of both
indices: every entry of `words_length_and_sum` at key (l, s) is a word
of length l and letter sum s, and every word in the sum-s bucket of
`most_common_words` has letter sum s. -/
theorem C10_indices_self_consistent (st : AnalyzerState) (line : Word)
    (h : IndicesWF st) : IndicesWF (process_line st line) :=
  indicesWF_step st line h

/-- C10 witness: the theorem applied to the initial state and the line
ab; the initial state's indices are empty, hence vacuously consistent. -/
theorem C10_witness :
    IndicesWF initState ∧ IndicesWF (process_line initState (w ['a', 'b'])) :=
  ⟨indicesWF_init, C10_indices_self_consistent initState (w ['a', 'b']) indicesWF_init⟩

/-! ## Chain structure invariants (C5) -/

theorem pyLast_mem : ∀ (ch : List Word), ch ≠ [] → pyLast ch ∈ ch := by
  intro ch
  induction ch with
  | nil => intro h; exact absurd rfl h
  | cons x t ih =>
      intro _
      cases t with
      | nil => simp [pyLast]
      | cons y t' =>
          have : pyLast (x :: y :: t') = pyLast (y :: t') := rfl
          rw [this]
          exact List.mem_cons_of_mem _ (ih (by simp))

theorem getLast?_eq_pyLast : ∀ (ch : List Word), ch ≠ [] →
    ch.getLast? = some (pyLast ch) := by
  intro ch
  induction ch with
  | nil => intro h; exact absurd rfl h
  | cons x t ih =>
      intro _
      cases t with
      | nil => rfl
      | cons y t' =>
          rw [List.getLast?_cons_cons]
          exact ih (by simp)

/-- The invariant carried by every chain in `chainlist`: nonempty, every
word at least `lb` long, word lengths strictly descending, letter sums
strictly ascending, and every word is the (truthy) index entry at its
own (length, sum) key. -/
def GoodChain (idx : List ((Nat × Nat) × Word)) (lb : Nat) (ch : List Word) :
    Prop :=
  ch ≠ [] ∧ (∀ u ∈ ch, lb ≤ u.length) ∧
    List.Chain' (fun a b => b.length < a.length) ch ∧
    List.Chain' (fun a b => LetterSum.calculate a < LetterSum.calculate b) ch ∧
    ∀ u ∈ ch, u ≠ [] ∧ assocGet idx (u.length, LetterSum.calculate u) = u

theorem goodChain_mono {idx : List ((Nat × Nat) × Word)} {lb lb' : Nat}
    {ch : List Word} (h : lb ≤ lb') (hg : GoodChain idx lb' ch) :
    GoodChain idx lb ch :=
  ⟨hg.1, fun u hu => le_trans h (hg.2.1 u hu), hg.2.2.1, hg.2.2.2.1, hg.2.2.2.2⟩

theorem findFirstSumAux_sound {idx : List ((Nat × Nat) × Word)} {L : Nat} :
    ∀ {fuel lo s : Nat} {u : Word}, findFirstSumAux idx L lo fuel = some (s, u) →
      lo ≤ s ∧ assocGet idx (L, s) = u ∧ u ≠ [] := by
  intro fuel
  induction fuel with
  | zero => intro lo s u h; simp [findFirstSumAux] at h
  | succ n ih =>
      intro lo s u h
      rw [findFirstSumAux] at h
      by_cases hw : assocGet idx (L, lo) ≠ []
      · rw [if_pos hw] at h
        obtain ⟨h1, h2⟩ := Prod.mk.inj (Option.some.inj h)
        subst h1
        subst h2
        exact ⟨le_refl _, rfl, hw⟩
      · rw [if_neg hw] at h
        obtain ⟨h1, h2, h3⟩ := ih h
        exact ⟨by omega, h2, h3⟩

theorem findFirstSum_sound {idx : List ((Nat × Nat) × Word)} {L lo hi s : Nat}
    {u : Word} (h : findFirstSum idx L lo hi = some (s, u)) :
    lo ≤ s ∧ assocGet idx (L, s) = u ∧ u ≠ [] :=
  findFirstSumAux_sound h

theorem assocFind_of_assocGet {idx : List ((Nat × Nat) × Word)}
    {k : Nat × Nat} {u : Word} (h : assocGet idx k = u) (hne : u ≠ []) :
    assocFind idx k = some u := by
  rw [assocGet] at h
  cases hf : assocFind idx k with
  | none =>
      rw [hf] at h
      simp at h
      exact absurd h hne
  | some v =>
      rw [hf] at h
      simp at h
      rw [h]

theorem goodChain_append {idx : List ((Nat × Nat) × Word)} {lb : Nat}
    {ch : List Word} {s : Nat} {u : Word} (hwf : IdxWF idx)
    (hg : GoodChain idx (lb + 1) ch) (hget : assocGet idx (lb, s) = u)
    (hne : u ≠ []) (hs : LetterSum.calculate (pyLast ch) + 1 ≤ s) :
    GoodChain idx lb (ch ++ [u]) := by
  obtain ⟨hne0, hbound, hdesc, hasc, hfrom⟩ := hg
  obtain ⟨hlen, hsum⟩ := hwf lb s u (assocFind_of_assocGet hget hne)
  have hlast_mem : pyLast ch ∈ ch := pyLast_mem ch hne0
  have hlast_len : lb + 1 ≤ (pyLast ch).length := hbound _ hlast_mem
  refine ⟨by simp, ?_, ?_, ?_, ?_⟩
  · intro x hx
    rcases List.mem_append.mp hx with hx | hx
    · exact le_trans (Nat.le_succ lb) (hbound x hx)
    · simp at hx
      subst hx
      omega
  · rw [List.chain'_append]
    refine ⟨hdesc, List.chain'_singleton u, ?_⟩
    intro x hx y hy
    rw [getLast?_eq_pyLast ch hne0] at hx
    simp at hx hy
    subst hx
    subst hy
    omega
  · rw [List.chain'_append]
    refine ⟨hasc, List.chain'_singleton u, ?_⟩
    intro x hx y hy
    rw [getLast?_eq_pyLast ch hne0] at hx
    simp at hx hy
    subst hx
    subst hy
    omega
  · intro x hx
    rcases List.mem_append.mp hx with hx | hx
    · exact hfrom x hx
    · simp at hx
      subst hx
      refine ⟨hne, ?_⟩
      rw [hlen, hsum]
      exact hget

theorem goodChain_singleton {idx : List ((Nat × Nat) × Word)} {L s : Nat}
    {u : Word} (hwf : IdxWF idx) (hget : assocGet idx (L, s) = u)
    (hne : u ≠ []) : GoodChain idx L [u] := by
  obtain ⟨hlen, hsum⟩ := hwf L s u (assocFind_of_assocGet hget hne)
  refine ⟨by simp, ?_, List.chain'_singleton u, List.chain'_singleton u, ?_⟩
  · intro x hx
    simp at hx
    subst hx
    omega
  · intro x hx
    simp at hx
    subst hx
    refine ⟨hne, ?_⟩
    rw [hlen, hsum]
    exact hget

theorem stepChain_good {idx : List ((Nat × Nat) × Word)} {maxsum L : Nat}
    {chain : List Word} (hwf : IdxWF idx) (hg : GoodChain idx (L + 1) chain) :
    GoodChain idx L (stepChain idx maxsum L chain).1 ∧
      ∀ b ∈ (stepChain idx maxsum L chain).2, GoodChain idx L b := by
  cases hf : findFirstSum idx L (LetterSum.calculate (pyLast chain) + 1) maxsum with
  | none =>
      have hstep : stepChain idx maxsum L chain = (chain, []) := by
        rw [stepChain, hf]
      rw [hstep]
      exact ⟨goodChain_mono (Nat.le_succ L) hg, by simp⟩
  | some p =>
      obtain ⟨s, u⟩ := p
      obtain ⟨hlo, hget, hne⟩ := findFirstSum_sound hf
      by_cases hsn : s = LetterSum.calculate (pyLast chain) + 1
      · have hstep : stepChain idx maxsum L chain = (chain ++ [u], []) := by
          rw [stepChain, hf]
          simp [hsn]
        rw [hstep]
        exact ⟨goodChain_append hwf hg hget hne hlo, by simp⟩
      · have hstep : stepChain idx maxsum L chain = (chain, [chain ++ [u]]) := by
          rw [stepChain, hf]
          simp [hsn]
        rw [hstep]
        refine ⟨goodChain_mono (Nat.le_succ L) hg, ?_⟩
        intro b hb
        simp at hb
        subst hb
        exact goodChain_append hwf hg hget hne hlo

theorem lengthStep_good {idx : List ((Nat × Nat) × Word)} {maxsum L : Nat}
    {cl : List (List Word)} (hwf : IdxWF idx)
    (h : ∀ c ∈ cl, GoodChain idx (L + 1) c) :
    ∀ c ∈ lengthStep idx maxsum L cl, GoodChain idx L c := by
  intro c hc
  rw [lengthStep] at hc
  have hmerged : ∀ c0 ∈ (cl.map (stepChain idx maxsum L)).map Prod.fst ++
      ((cl.map (stepChain idx maxsum L)).map Prod.snd).flatten,
      GoodChain idx L c0 := by
    intro c0 hc0
    rcases List.mem_append.mp hc0 with h1 | h1
    · rw [List.map_map] at h1
      obtain ⟨c1, hc1, rfl⟩ := List.mem_map.mp h1
      exact (stepChain_good hwf (h c1 hc1)).1
    · rw [List.map_map] at h1
      rw [List.mem_flatten] at h1
      obtain ⟨l, hl, hcl⟩ := h1
      obtain ⟨c1, hc1, rfl⟩ := List.mem_map.mp hl
      exact (stepChain_good hwf (h c1 hc1)).2 c0 hcl
  cases hf : findFirstSum idx L 1 maxsum with
  | none =>
      rw [hf] at hc
      exact hmerged c hc
  | some p =>
      obtain ⟨s, u⟩ := p
      rw [hf] at hc
      rcases List.mem_append.mp hc with h1 | h1
      · exact hmerged c h1
      · simp at h1
        subst h1
        obtain ⟨_, hget, hne⟩ := findFirstSum_sound hf
        exact goodChain_singleton hwf hget hne

theorem runLengths_good {idx : List ((Nat × Nat) × Word)} {maxsum : Nat}
    (hwf : IdxWF idx) :
    ∀ (L : Nat) (cl : List (List Word)),
      (∀ c ∈ cl, GoodChain idx (L + 1) c) →
      ∀ c ∈ runLengths idx maxsum L cl, GoodChain idx 1 c := by
  intro L
  induction L with
  | zero => intro cl h c hc; exact h c hc
  | succ n ih =>
      intro cl h c hc
      rw [runLengths] at hc
      exact ih _ (fun c0 hc0 => lengthStep_good hwf h c0 hc0) c hc

theorem foldl_max_mem :
    ∀ (t : List (List Word)) (b : List Word),
      t.foldl (fun best x => if best.length < x.length then x else best) b = b ∨
      t.foldl (fun best x => if best.length < x.length then x else best) b ∈ t := by
  intro t
  induction t with
  | nil => intro b; exact Or.inl rfl
  | cons x t' ih =>
      intro b
      rcases ih (if b.length < x.length then x else b) with h | h
      · rw [List.foldl_cons, h]
        by_cases hbx : b.length < x.length
        · right
          simp [hbx]
        · left
          simp [hbx]
      · right
        exact List.mem_cons_of_mem _ h

theorem pyMaxByLen_mem {cl : List (List Word)} {ch : List Word}
    (h : pyMaxByLen cl = some ch) : ch ∈ cl := by
  cases cl with
  | nil => simp [pyMaxByLen] at h
  | cons c rest =>
      rw [pyMaxByLen] at h
      have heq := Option.some.inj h
      rcases foldl_max_mem rest c with h1 | h1
      · rw [heq] at h1
        rw [← h1]
        simp
      · rw [heq] at h1
        exact List.mem_cons_of_mem _ h1

theorem chain'_pairwise_of_trans (R : Word → Word → Prop)
    (ht : ∀ a b c, R a b → R b c → R a c) :
    ∀ {l : List Word}, List.Chain' R l → List.Pairwise R l := by
  intro l
  induction l with
  | nil => intro _; exact List.Pairwise.nil
  | cons a t ih =>
      intro hc
      obtain ⟨hhead, htail⟩ := List.chain'_cons'.mp hc
      refine List.Pairwise.cons ?_ (ih htail)
      intro b hb
      cases t with
      | nil => simp at hb
      | cons c t' =>
          have hac : R a c := hhead c rfl
          rcases List.mem_cons.mp hb with rfl | hb'
          · exact hac
          · have hp := ih htail
            exact ht a c b hac ((List.pairwise_cons.mp hp).1 b hb')

/-- C5: whenever `find_longest_unique` over a built corpus index returns
a list, that list has strictly descending word lengths and strictly
ascending letter sums across consecutive elements, all lengths and all
sums in it are pairwise distinct, and every word of it is one of the
corpus lines. -/
theorem C5_chain_structure (lines : List Word) (ch : List Word)
    (h : find_longest_unique (buildState lines) = some ch) :
    List.Chain' (fun a b => b.length < a.length) ch ∧
      List.Chain' (fun a b => LetterSum.calculate a < LetterSum.calculate b) ch ∧
      List.Pairwise (fun a b => a.length ≠ b.length) ch ∧
      List.Pairwise (fun a b => LetterSum.calculate a ≠ LetterSum.calculate b) ch ∧
      ∀ u ∈ ch, u ∈ lines := by
  rw [find_longest_unique] at h
  have hwf : IdxWF (buildState lines).words_length_and_sum :=
    (indicesWF_build lines).1
  have hgood := runLengths_good hwf (buildState lines).MAXLEN []
    (by simp) ch (pyMaxByLen_mem h)
  obtain ⟨hne, hbound, hdesc, hasc, hfrom⟩ := hgood
  have hpd := chain'_pairwise_of_trans (fun a b => b.length < a.length)
    (fun a b c h1 h2 => lt_trans h2 h1) hdesc
  have hpa := chain'_pairwise_of_trans
    (fun a b => LetterSum.calculate a < LetterSum.calculate b)
    (fun a b c h1 h2 => lt_trans h1 h2) hasc
  refine ⟨hdesc, hasc, ?_, ?_, ?_⟩
  · exact hpd.imp (fun h => (Nat.ne_of_lt h).symm)
  · exact hpa.imp Nat.ne_of_lt
  · intro u hu
    obtain ⟨hune, hget⟩ := hfrom u hu
    exact assocFind_build_mem lines _ u (assocFind_of_assocGet hget hune)

/-- C5 witness: the corpus with the words d and ab builds an index on
which the chain builder returns the one-word chain ab, and the theorem's
structural conclusions hold of it. -/
theorem C5_witness :
    find_longest_unique (buildState [w ['d'], w ['a', 'b']]) =
        some [w ['a', 'b']] ∧
      (List.Chain' (fun a b => b.length < a.length) [w ['a', 'b']] ∧
        List.Chain'
          (fun a b => LetterSum.calculate a < LetterSum.calculate b)
          [w ['a', 'b']] ∧
        List.Pairwise (fun a b => a.length ≠ b.length) [w ['a', 'b']] ∧
        List.Pairwise
          (fun a b => LetterSum.calculate a ≠ LetterSum.calculate b)
          [w ['a', 'b']] ∧
        ∀ u ∈ [w ['a', 'b']], u ∈ [w ['d'], w ['a', 'b']]) :=
  ⟨by decide, C5_chain_structure [w ['d'], w ['a', 'b']] [w ['a', 'b']] (by decide)⟩

end Challenge399
